import Mathlib

/-!
# yamlI18nMerge: the format-preserving YAML merge

A shallow embedding of `main.go`:

* `merge`, the legacy merge of two ordered maps (`yaml.MapSlice`);
* the AST merge that `ProcessFiles` performs on the entry lists of the two
  root mappings (`dstKeyNodes`, `mergeLoop`, `mergeAST`);
* `ProcessFiles` itself, with the file system, the parser and the printer
  taken as parameters.

Pointers to destination entries are represented by the position of the entry
in the destination's entry list: the parser allocates one node per entry, so
a pointer and a position determine each other, and entries appended by the
merge are never reached through the index. The two syntax trees come from two
calls of the parser and share no node; likewise `merge` is modelled for two
slices that do not share their backing array. Keys of a `yaml.MapSlice` are
taken from a type with decidable equality, the comparison the Go map uses on
hashable keys.

The file has three parts: the definitions, the lemmas on the loops, and the
claims `C1` to `C10`.
-/

namespace YamlMerge

/-! ## Data model -/

/-- Modelled from the spec: the syntax-tree node of the external YAML library
(`ast.Node`), as far as the merge inspects it. A string scalar carries its
decoded `Value` and its lexical form `text` (quoting, comments); for every
other node (other scalars, nested mappings, sequences, aliases) only the
lexical form of the whole sub-tree is kept, since the merge never looks
inside it. -/
inductive Node where
  | stringNode (Value : String) (text : String)
  | otherNode (text : String)
  deriving DecidableEq, Repr

/-- Modelled from the spec: one entry of a mapping (`ast.MappingValueNode`),
a key node and a value node. -/
structure MappingValueNode where
  Key : Node
  Value : Node
  deriving DecidableEq, Repr

/-- Modelled from the spec: the body of a document (`DocumentNode.Body`, an
`ast.Node` interface value): absent, a mapping with its ordered entry list
(`*ast.MappingNode`), or any other node. -/
inductive BodyNode where
  | nil
  | mappingNode (Values : List MappingValueNode)
  | other (text : String)
  deriving DecidableEq, Repr

/-- Modelled from the spec: one document of a parsed file (`ast.DocumentNode`). -/
structure DocumentNode where
  Body : BodyNode
  deriving DecidableEq, Repr

/-- Modelled from the spec: a parsed file (`ast.File`), a slice of documents. -/
structure File where
  Docs : List DocumentNode
  deriving DecidableEq, Repr

/-- One item of a `yaml.MapSlice`. -/
structure MapItem (K V : Type) where
  Key : K
  Value : V
  deriving DecidableEq, Repr

/-- The ordered map `yaml.MapSlice`: a slice of items. -/
abbrev MapSlice (K V : Type) := List (MapItem K V)

/-! ## The legacy merge of ordered maps (`merge`, main.go 28-46) -/

/-- First loop of `merge`: `dstMap[item.Key] = i` for each item of `dst` in
order, starting at position `i` from the map `m`. -/
def dstMap {K V : Type} [DecidableEq K] :
    MapSlice K V → Nat → (K → Option Nat) → K → Option Nat
  | [], _, m => m
  | item :: rest, i, m => dstMap rest (i + 1) (fun k => if k = item.Key then some i else m k)

/-- The assignment `(*dst)[i].Value = v`. -/
def setItemValue {K V : Type} (dst : MapSlice K V) (i : Nat) (v : V) : MapSlice K V :=
  match dst[i]? with
  | some d => dst.set i { d with Value := v }
  | none => dst

/-- Second loop of `merge`: each source item either overwrites the value at
the indexed position or is appended; the index is not updated. -/
def mergeItems {K V : Type} (idx : K → Option Nat) :
    MapSlice K V → MapSlice K V → MapSlice K V
  | [], dst => dst
  | srcItem :: rest, dst =>
    match idx srcItem.Key with
    | some i => mergeItems idx rest (setItemValue dst i srcItem.Value)
    | none => mergeItems idx rest (dst ++ [srcItem])

/-- The function `merge(src, dst)`: the final contents of `*dst`. -/
def merge {K V : Type} [DecidableEq K] (src dst : MapSlice K V) : MapSlice K V :=
  mergeItems (dstMap dst 0 (fun _ => none)) src dst

/-- The value of the last item of `src` with key `k`, if there is one. -/
def lastValue {K V : Type} [DecidableEq K] (src : MapSlice K V) (k : K) : Option V :=
  ((src.filter (fun s => decide (s.Key = k))).getLast?).map (fun s => s.Value)

/-- The legacy merge as the claim words it: the items of `dst` in order, where
an item at the last position of `dst` holding its key takes the value of the
last item of `src` with that key when there is one, followed by the items of
`src` whose key does not occur in `dst`, in source order. -/
def mergeSpec {K V : Type} [DecidableEq K] (src dst : MapSlice K V) : MapSlice K V :=
  dst.mapIdx (fun i item =>
      if (dst.drop (i + 1)).all (fun d => decide (d.Key ≠ item.Key)) then
        match lastValue src item.Key with
        | some v => { item with Value := v }
        | none => item
      else item)
    ++ src.filter (fun s => dst.all (fun d => decide (d.Key ≠ s.Key)))

/-! ## The AST merge inside `ProcessFiles` (main.go 83-105) -/

/-- The type assertion `n.(*ast.StringNode)` followed by `.Value`: the decoded
string of a string scalar, nothing for any other node. -/
def stringValue : Node → Option String
  | .stringNode v _ => some v
  | .otherNode _ => none

/-- The loop of lines 84-89: `dstKeyNodes[keyNode.Value] = valueNode` for each
entry of the destination whose key is a string node. The stored pointer is
the position of the entry. -/
def dstKeyNodes :
    List MappingValueNode → Nat → (String → Option Nat) → String → Option Nat
  | [], _, m => m
  | valueNode :: rest, i, m =>
    match stringValue valueNode.Key with
    | some v => dstKeyNodes rest (i + 1) (fun k => if k = v then some i else m k)
    | none => dstKeyNodes rest (i + 1) m

/-- The assignment `dstValueNode.Value = v` through the pointer to entry `i`. -/
def setValue (values : List MappingValueNode) (i : Nat) (v : Node) :
    List MappingValueNode :=
  match values[i]? with
  | some d => values.set i { d with Value := v }
  | none => values

/-- The loop of lines 92-105 over the source entries, acting on the
destination's entry list `values`; the index `idx` is never updated. -/
def mergeLoop (idx : String → Option Nat) :
    List MappingValueNode → List MappingValueNode → List MappingValueNode
  | [], values => values
  | srcValueNode :: rest, values =>
    match stringValue srcValueNode.Key with
    | some keyStr =>
      match idx keyStr with
      | some i => mergeLoop idx rest (setValue values i srcValueNode.Value)
      | none => mergeLoop idx rest (values ++ [srcValueNode])
    | none => mergeLoop idx rest values

/-- The AST merge of lines 83-105: the destination's entry list after merging
the source's entry list into it. -/
def mergeAST (src dst : List MappingValueNode) : List MappingValueNode :=
  mergeLoop (dstKeyNodes dst 0 (fun _ => none)) src dst

/-! ## `ProcessFiles` (main.go 49-123) -/

/-- The collaborators of `ProcessFiles`: what reading a path returns, what the
parser returns on a text, whether opening a path for writing and writing a
text to it fail (`none` is success), and the printer of a syntax tree. -/
structure World where
  readFile : String → Except String String
  parseBytes : String → Except String File
  openFile : String → Option String
  writeString : String → String → Option String
  render : File → String

/-- An effect of `ProcessFiles` on the file system. -/
inductive Effect where
  | truncated (path : String)
  | wrote (path : String) (content : String)
  deriving DecidableEq, Repr

/-- How a call ends: `returned none` is a nil error, `returned (some msg)` an
error value with message `msg`, `panicked` a run-time panic. -/
inductive Outcome where
  | returned (err : Option String)
  | panicked (msg : String)
  deriving DecidableEq, Repr

/-- The type assertion `body.(*ast.MappingNode)` in its two-result form. -/
def asMappingNode : BodyNode → Option (List MappingValueNode)
  | .mappingNode values => some values
  | _ => none

/-- The function `ProcessFiles(srcPath, dstPath)`: how the call ends and the
file-system effects it performed, in order. -/
def ProcessFiles (w : World) (srcPath dstPath : String) : Outcome × List Effect :=
  match w.readFile srcPath with
  | .error err => (.returned (some ("failed to read source file: " ++ err)), [])
  | .ok srcBytes =>
  match w.readFile dstPath with
  | .error err => (.returned (some ("failed to read destination file: " ++ err)), [])
  | .ok dstBytes =>
  match w.parseBytes srcBytes with
  | .error err => (.returned (some ("failed to parse source YAML: " ++ err)), [])
  | .ok srcAST =>
  match w.parseBytes dstBytes with
  | .error err => (.returned (some ("failed to parse destination YAML: " ++ err)), [])
  | .ok dstAST =>
  match srcAST.Docs with
  | [] => (.panicked "index out of range [0] with length 0", [])
  | srcDoc :: _ =>
  match asMappingNode srcDoc.Body with
  | none => (.returned (some "source YAML is not a map"), [])
  | some srcValues =>
  match dstAST.Docs with
  | [] => (.panicked "index out of range [0] with length 0", [])
  | dstDoc :: dstRest =>
  match asMappingNode dstDoc.Body with
  | none => (.returned (some "destination YAML is not a map"), [])
  | some dstValues =>
  let merged : File :=
    { Docs := { Body := .mappingNode (mergeAST srcValues dstValues) } :: dstRest }
  match w.openFile dstPath with
  | some err =>
    (.returned (some ("failed to open destination file for writing: " ++ err)), [])
  | none =>
  let output := w.render merged
  match w.writeString dstPath output with
  | some err =>
    (.returned (some ("failed to write merged YAML to file: " ++ err)),
      [.truncated dstPath])
  | none => (.returned none, [.truncated dstPath, .wrote dstPath output])

/-- The decoded string key of an entry, when its key node is a string scalar. -/
def entryKey (e : MappingValueNode) : Option String := stringValue e.Key

/-! ## Concrete documents of the test-suite -/

/-- A plain (unquoted) string scalar. -/
def plain (s : String) : Node := .stringNode s s

/-- A single-quoted string scalar. -/
def quoted (s : String) : Node := .stringNode s ("'" ++ s ++ "'")

/-- An entry from a key node and a value node. -/
def entry (k v : Node) : MappingValueNode := { Key := k, Value := v }

/-- The source document of `TestProcessFiles`: `key1: value1`, `'key2': value2_src`. -/
def testSrc : List MappingValueNode :=
  [entry (plain "key1") (plain "value1"), entry (quoted "key2") (plain "value2_src")]

/-- The destination document of `TestProcessFiles`: `'key2': value2`, `'key3': value3`. -/
def testDst : List MappingValueNode :=
  [entry (quoted "key2") (plain "value2"), entry (quoted "key3") (plain "value3")]

/-- A source with the key `k` twice: `k: a`, `k: b`. -/
def dupSrc : List MappingValueNode :=
  [entry (plain "k") (plain "a"), entry (plain "k") (plain "b")]

/-- A destination with the key `k` twice: `k: a`, `k: b`. -/
def dupDst : List MappingValueNode :=
  [entry (plain "k") (plain "a"), entry (plain "k") (plain "b")]

/-- A source repeating the first entry of `dupDst`: `k: a`. -/
def subSrc : List MappingValueNode := [entry (plain "k") (plain "a")]

/-- A destination `k: v` with a plain value. -/
def plainDst : List MappingValueNode := [entry (plain "k") (plain "v")]

/-- A source `k: 'v'`: the same decoded value as in `plainDst`, quoted. -/
def quotedSrc : List MappingValueNode := [entry (plain "k") (quoted "v")]

/-- A world with the files `src.yaml` (a sequence, `- a`) and `dst.yaml` (a
mapping, `k: v`), in which every operation succeeds. -/
def seqSrcWorld : World where
  readFile := fun path => if path = "src.yaml" then .ok "- a" else .ok "k: v"
  parseBytes := fun text =>
    if text = "- a" then .ok { Docs := [{ Body := .other "- a" }] }
    else .ok { Docs := [{ Body := .mappingNode [entry (plain "k") (plain "v")] }] }
  openFile := fun _ => none
  writeString := fun _ _ => none
  render := fun _ => ""

/-- A world with the files `src.yaml` (a mapping, `k: v`) and `dst.yaml` (a
scalar, `hello`), in which every operation succeeds. -/
def scalarDstWorld : World where
  readFile := fun path => if path = "src.yaml" then .ok "k: v" else .ok "hello"
  parseBytes := fun text =>
    if text = "k: v" then .ok { Docs := [{ Body := .mappingNode [entry (plain "k") (plain "v")] }] }
    else .ok { Docs := [{ Body := .other "hello" }] }
  openFile := fun _ => none
  writeString := fun _ _ => none
  render := fun _ => ""

/-- A world with an empty `src.yaml`, which parses to a file without
documents, and `dst.yaml` (a mapping, `k: v`); every operation succeeds. -/
def emptySrcWorld : World where
  readFile := fun path => if path = "src.yaml" then .ok "" else .ok "k: v"
  parseBytes := fun text =>
    if text = "" then .ok { Docs := [] }
    else .ok { Docs := [{ Body := .mappingNode [entry (plain "k") (plain "v")] }] }
  openFile := fun _ => none
  writeString := fun _ _ => none
  render := fun _ => ""

/-! ## Notions the statements use -/

/-- Whether the key of entry `e` is the string scalar `k`. -/
def keyIs (k : String) (e : MappingValueNode) : Bool := decide (entryKey e = some k)

/-- Entry `e` stands at position `i` of `l`, its key is the string scalar `k`,
and no later entry of `l` has that key: it is the last entry of `l` with key `k`. -/
def LastWithKey (l : List MappingValueNode) (k : String) (i : Nat)
    (e : MappingValueNode) : Prop :=
  l[i]? = some e ∧ entryKey e = some k ∧
    ∀ i' e', i < i' → l[i']? = some e' → entryKey e' ≠ some k

/-- Whether a source entry is new to `dst`: its key is a string scalar that is
the key of no entry of `dst`. -/
def isNewEntry (dst : List MappingValueNode) (s : MappingValueNode) : Bool :=
  match entryKey s with
  | some k => dst.all (fun d => decide (entryKey d ≠ some k))
  | none => false

/-! ## The common shape of the two merges

Both merges index the destination by key (last position wins), then walk the
source, overwriting at the indexed position or appending. The lemmas are
proved once, for an entry type `α` with a partial key `key : α → Option κ`
and an overwrite `put d s` (the entry `d` with the value of `s`). -/

namespace Core

set_option linter.unusedSectionVars false

variable {α κ : Type} [DecidableEq κ]

/-- The indexing loop for a partial key. -/
def index (key : α → Option κ) : List α → Nat → (κ → Option Nat) → κ → Option Nat
  | [], _, m => m
  | e :: rest, i, m =>
    match key e with
    | some v => index key rest (i + 1) (fun k => if k = v then some i else m k)
    | none => index key rest (i + 1) m

/-- Overwrite at position `i`. -/
def setAt (put : α → α → α) (vals : List α) (i : Nat) (s : α) : List α :=
  match vals[i]? with
  | some d => vals.set i (put d s)
  | none => vals

/-- The merging loop for a partial key. -/
def loop (key : α → Option κ) (put : α → α → α) (idx : κ → Option Nat) :
    List α → List α → List α
  | [], vals => vals
  | s :: rest, vals =>
    match key s with
    | some k =>
      match idx k with
      | some i => loop key put idx rest (setAt put vals i s)
      | none => loop key put idx rest (vals ++ [s])
    | none => loop key put idx rest vals

/-- The overwrites of the merging loop alone, without the appends. -/
def upds (key : α → Option κ) (put : α → α → α) (idx : κ → Option Nat) :
    List α → List α → List α
  | [], vals => vals
  | s :: rest, vals =>
    match (key s).bind idx with
    | some i => upds key put idx rest (setAt put vals i s)
    | none => upds key put idx rest vals

/-- Whether a source entry is appended: it has a key and the key is not indexed. -/
def isNew (key : α → Option κ) (idx : κ → Option Nat) (s : α) : Bool :=
  match key s with
  | some k => (idx k).isNone
  | none => false

/-- The last entry of a list satisfying `p`, with its position. -/
def lastWith (p : α → Bool) : List α → Option (Nat × α)
  | [] => none
  | e :: rest =>
    match lastWith p rest with
    | some (j, x) => some (j + 1, x)
    | none => if p e then some (0, e) else none

/-- Entry `e` stands at position `j` of `l`, satisfies `p`, and no later entry does. -/
def IsLast (p : α → Bool) (l : List α) (j : Nat) (e : α) : Prop :=
  l[j]? = some e ∧ p e = true ∧ ∀ j' e', j < j' → l[j']? = some e' → p e' = false

/-- Whether entry `e` has key `k`. -/
def hasKey (key : α → Option κ) (k : κ) (e : α) : Bool := decide (key e = some k)

/-- The index built from position 0 over the empty map. -/
def indexOf (key : α → Option κ) (l : List α) : κ → Option Nat :=
  index key l 0 (fun _ => none)

/-- Whether source entry `s` overwrites position `i`. -/
def hits (key : α → Option κ) (idx : κ → Option Nat) (i : Nat) (s : α) : Bool :=
  decide ((key s).bind idx = some i)

/-- The whole merge: index the destination, then run the loop on it. -/
def run (key : α → Option κ) (put : α → α → α) (src dst : List α) : List α :=
  loop key put (indexOf key dst) src dst

/-- What the merge leaves at a position of the destination. -/
def merged (key : α → Option κ) (put : α → α → α) (src dst : List α) (i : Nat) (d : α) : α :=
  match key d with
  | none => d
  | some k =>
    if indexOf key dst k = some i then
      match lastWith (hasKey key k) src with
      | some (_, s) => put d s
      | none => d
    else d

end Core

/-- The overwrite of the AST merge: the destination entry with the source's value node. -/
def putValue (d s : MappingValueNode) : MappingValueNode := { d with Value := s.Value }

/-- The key of an item, as a partial key that is always present. -/
def itemKey {K V : Type} (item : MapItem K V) : Option K := some item.Key

/-- The overwrite of the legacy merge: the destination item with the source's value. -/
def putItem {K V : Type} (d s : MapItem K V) : MapItem K V := { d with Value := s.Value }

/-! ## Lemmas on the common shape -/

namespace Core

set_option linter.unusedSectionVars false

variable {α κ : Type} [DecidableEq κ]

/-! ### The last entry satisfying a predicate -/

theorem lastWith_eq_none_iff (p : α → Bool) (l : List α) :
    lastWith p l = none ↔ ∀ e ∈ l, p e = false := by
  induction l with
  | nil => simp [lastWith]
  | cons a l ih =>
    simp only [lastWith, List.mem_cons, forall_eq_or_imp]
    cases h : lastWith p l with
    | none =>
      have h2 := ih.mp h
      by_cases hp : p a = true
      · simp [hp]
      · simpa [hp] using h2
    | some x =>
      obtain ⟨j, y⟩ := x
      simp only [false_iff, not_and, reduceCtorEq]
      intro _ hall
      rw [ih.mpr hall] at h
      cases h

theorem isLast_of_lastWith (p : α → Bool) :
    ∀ (l : List α) (j : Nat) (e : α), lastWith p l = some (j, e) → IsLast p l j e := by
  intro l
  induction l with
  | nil => intro j e h; simp [lastWith] at h
  | cons a l ih =>
    intro j e h
    simp only [lastWith] at h
    cases hl : lastWith p l with
    | none =>
      rw [hl] at h
      by_cases hp : p a = true
      · simp only [hp, if_true, Option.some.injEq, Prod.mk.injEq] at h
        obtain ⟨rfl, rfl⟩ := h
        refine ⟨by simp, hp, ?_⟩
        intro j' e' hj he
        obtain ⟨n, rfl⟩ : ∃ n, j' = n + 1 := ⟨j' - 1, by omega⟩
        rw [List.getElem?_cons_succ] at he
        exact (lastWith_eq_none_iff p l).mp hl e' (List.getElem?_mem he)
      · simp [hp] at h
    | some x =>
      obtain ⟨i, y⟩ := x
      rw [hl] at h
      simp only [Option.some.injEq, Prod.mk.injEq] at h
      obtain ⟨rfl, rfl⟩ := h
      obtain ⟨h1, h2, h3⟩ := ih i y hl
      refine ⟨by simpa using h1, h2, ?_⟩
      intro j' e' hj he
      obtain ⟨n, rfl⟩ : ∃ n, j' = n + 1 := ⟨j' - 1, by omega⟩
      rw [List.getElem?_cons_succ] at he
      exact h3 n e' (by omega) he

theorem isLast_unique (p : α → Bool) (l : List α) (j j' : Nat) (e e' : α)
    (h : IsLast p l j e) (h' : IsLast p l j' e') : j = j' ∧ e = e' := by
  obtain ⟨h1, h2, h3⟩ := h
  obtain ⟨h1', h2', h3'⟩ := h'
  have hj : j = j' := by
    rcases Nat.lt_trichotomy j j' with hlt | heq | hgt
    · have := h3 j' e' hlt h1'
      rw [h2'] at this; cases this
    · exact heq
    · have := h3' j e hgt h1
      rw [h2] at this; cases this
  subst hj
  rw [h1] at h1'
  exact ⟨rfl, Option.some.inj h1'⟩

theorem lastWith_eq_some_iff (p : α → Bool) (l : List α) (j : Nat) (e : α) :
    lastWith p l = some (j, e) ↔ IsLast p l j e := by
  refine ⟨isLast_of_lastWith p l j e, ?_⟩
  intro h
  cases hl : lastWith p l with
  | none =>
    have := (lastWith_eq_none_iff p l).mp hl e (List.getElem?_mem h.1)
    rw [h.2.1] at this; cases this
  | some x =>
    obtain ⟨i, y⟩ := x
    obtain ⟨rfl, rfl⟩ := isLast_unique p l i j y e (isLast_of_lastWith p l i y hl) h
    rfl

/-! ### The index is the last position of each key -/

theorem index_eq (key : α → Option κ) (k : κ) :
    ∀ (l : List α) (i : Nat) (m : κ → Option Nat),
      index key l i m k =
        match lastWith (hasKey key k) l with
        | some (j, _) => some (i + j)
        | none => m k := by
  intro l
  induction l with
  | nil => intro i m; simp [index, lastWith]
  | cons a l ih =>
    intro i m
    have step : index key (a :: l) i m k =
        match lastWith (hasKey key k) l with
        | some (j, _) => some (i + 1 + j)
        | none => if key a = some k then some i else m k := by
      cases hk : key a with
      | none => simp only [index, hk]; rw [ih]; simp
      | some v =>
        simp only [index, hk]; rw [ih]
        cases lastWith (hasKey key k) l with
        | none =>
          by_cases hv : k = v
          · simp [hv]
          · have : v ≠ k := fun h => hv h.symm
            simp [hv, this]
        | some x => rfl
    rw [step]
    simp only [lastWith]
    cases lastWith (hasKey key k) l with
    | none =>
      by_cases hv : key a = some k
      · simp [hasKey, hv]
      · simp [hasKey, hv]
    | some x => simp [Nat.add_assoc, Nat.add_comm 1]

theorem indexOf_eq (key : α → Option κ) (l : List α) (k : κ) :
    indexOf key l k = (lastWith (hasKey key k) l).map Prod.fst := by
  unfold indexOf
  rw [index_eq]
  cases lastWith (hasKey key k) l with
  | none => rfl
  | some x => simp

theorem indexOf_eq_some_iff (key : α → Option κ) (l : List α) (k : κ) (i : Nat) :
    indexOf key l k = some i ↔ ∃ e, IsLast (hasKey key k) l i e := by
  rw [indexOf_eq]
  constructor
  · intro h
    cases hl : lastWith (hasKey key k) l with
    | none => rw [hl] at h; cases h
    | some x =>
      obtain ⟨j, e⟩ := x
      rw [hl] at h
      simp only [Option.map_some', Option.some.injEq] at h
      subst h
      exact ⟨e, (lastWith_eq_some_iff _ l j e).mp hl⟩
  · rintro ⟨e, he⟩
    rw [(lastWith_eq_some_iff _ l i e).mpr he]
    rfl

theorem indexOf_eq_none_iff (key : α → Option κ) (l : List α) (k : κ) :
    indexOf key l k = none ↔ ∀ e ∈ l, key e ≠ some k := by
  rw [indexOf_eq, Option.map_eq_none', lastWith_eq_none_iff]
  simp [hasKey]

theorem indexOf_lt (key : α → Option κ) (l : List α) (k : κ) (i : Nat)
    (h : indexOf key l k = some i) : i < l.length := by
  obtain ⟨e, he, _⟩ := (indexOf_eq_some_iff key l k i).mp h
  exact (List.getElem?_eq_some.mp he).1

/-! ### Overwrites and appends separate -/

theorem setAt_length (put : α → α → α) (vals : List α) (i : Nat) (s : α) :
    (setAt put vals i s).length = vals.length := by
  unfold setAt
  cases vals[i]? <;> simp

theorem setAt_getElem? (put : α → α → α) (vals : List α) (i j : Nat) (s : α) :
    (setAt put vals i s)[j]? =
      if i = j then vals[j]?.map (fun d => put d s) else vals[j]? := by
  unfold setAt
  cases h : vals[i]? with
  | none =>
    by_cases hij : i = j
    · subst hij; simp [h]
    · simp [hij]
  | some d =>
    simp only [List.getElem?_set]
    by_cases hij : i = j
    · subst hij
      have hlt : i < vals.length := (List.getElem?_eq_some.mp h).1
      simp [h, hlt]
    · simp [hij]

theorem setAt_append (put : α → α → α) (vals app : List α) (i : Nat) (s : α)
    (h : i < vals.length) :
    setAt put (vals ++ app) i s = setAt put vals i s ++ app := by
  unfold setAt
  rw [List.getElem?_append_left h, List.getElem?_eq_getElem h]
  simp [List.set_append, h]

theorem upds_length (key : α → Option κ) (put : α → α → α) (idx : κ → Option Nat) :
    ∀ (src vals : List α), (upds key put idx src vals).length = vals.length := by
  intro src
  induction src with
  | nil => intro vals; rfl
  | cons s rest ih =>
    intro vals
    simp only [upds]
    cases (key s).bind idx with
    | none => exact ih vals
    | some i => simp only []; rw [ih, setAt_length]

theorem loop_append (key : α → Option κ) (put : α → α → α) (idx : κ → Option Nat) (n : Nat)
    (hidx : ∀ k i, idx k = some i → i < n) :
    ∀ (src vals app : List α), vals.length = n →
      loop key put idx src (vals ++ app) =
        upds key put idx src vals ++ (app ++ src.filter (isNew key idx)) := by
  intro src
  induction src with
  | nil => intro vals app _; simp [loop, upds]
  | cons s rest ih =>
    intro vals app hn
    cases hk : key s with
    | none =>
      simp only [loop, upds, hk, Option.bind, List.filter_cons, isNew]
      rw [ih vals app hn]
      simp
    | some k =>
      cases hi : idx k with
      | none =>
        simp only [loop, upds, hk, hi, Option.bind, List.filter_cons, isNew]
        rw [List.append_assoc, ih vals (app ++ [s]) hn]
        simp
      | some i =>
        have hlt : i < vals.length := hn ▸ hidx k i hi
        simp only [loop, upds, hk, hi, Option.bind, List.filter_cons, isNew]
        rw [setAt_append put vals app i s hlt,
          ih (setAt put vals i s) app (by rw [setAt_length]; exact hn)]
        simp

theorem upds_getElem? (key : α → Option κ) (put : α → α → α) (idx : κ → Option Nat)
    (hput : ∀ d s s', put (put d s) s' = put d s') (i : Nat) :
    ∀ (src vals : List α),
      (upds key put idx src vals)[i]? =
        vals[i]?.map (fun d =>
          match lastWith (hits key idx i) src with
          | some (_, s) => put d s
          | none => d) := by
  intro src
  induction src with
  | nil => intro vals; simp [upds, lastWith]
  | cons s rest ih =>
    intro vals
    simp only [upds, lastWith]
    cases hb : (key s).bind idx with
    | none =>
      simp only []
      rw [ih vals]
      have hh : hits key idx i s = false := by simp [hits, hb]
      cases lastWith (hits key idx i) rest with
      | none => simp [hh]
      | some x => rfl
    | some j =>
      simp only []
      rw [ih (setAt put vals j s), setAt_getElem?]
      by_cases hji : j = i
      · subst hji
        have hh : hits key idx j s = true := by simp [hits, hb]
        cases lastWith (hits key idx j) rest with
        | none => cases vals[j]? <;> simp [hh]
        | some x => cases vals[j]? <;> simp [hput]
      · have hh : hits key idx i s = false := by simp [hits, hb, hji]
        cases lastWith (hits key idx i) rest with
        | none => simp [hji, hh]
        | some x => simp [hji]

/-! ### The merge from the index of the destination -/

theorem run_eq (key : α → Option κ) (put : α → α → α) (src dst : List α) :
    run key put src dst =
      upds key put (indexOf key dst) src dst ++ src.filter (isNew key (indexOf key dst)) := by
  have h := loop_append key put (indexOf key dst) dst.length
    (fun k i hk => indexOf_lt key dst k i hk) src dst [] rfl
  simpa [run] using h

theorem lastWith_congr (p q : α → Bool) :
    ∀ (l : List α), (∀ e ∈ l, p e = q e) → lastWith p l = lastWith q l := by
  intro l
  induction l with
  | nil => intro _; rfl
  | cons a l ih =>
    intro h
    simp only [lastWith]
    rw [ih (fun e he => h e (List.mem_cons_of_mem a he)), h a (List.mem_cons_self a l)]

theorem hits_indexOf (key : α → Option κ) (dst : List α) (i : Nat) (d : α)
    (hd : dst[i]? = some d) (s : α) :
    hits key (indexOf key dst) i s =
      match key d with
      | some k => hasKey key k s && decide (indexOf key dst k = some i)
      | none => false := by
  have hkey : ∀ k, indexOf key dst k = some i → key d = some k := by
    intro k hk
    obtain ⟨e, he, hp, _⟩ := (indexOf_eq_some_iff key dst k i).mp hk
    rw [hd] at he
    cases he
    simpa [hasKey] using hp
  cases hs : key s with
  | none =>
    cases hk : key d with
    | none => simp [hits, hs]
    | some k => simp [hits, hs, hasKey]
  | some k' =>
    by_cases hi : indexOf key dst k' = some i
    · simp [hits, hs, hi, hkey k' hi, hasKey]
    · cases hk : key d with
      | none => simp [hits, hs, hi]
      | some k =>
        by_cases hkk : k' = k
        · subst hkk; simp [hits, hs, hi, hasKey]
        · simp [hits, hs, hi, hasKey, hkk]

theorem upds_indexOf_getElem? (key : α → Option κ) (put : α → α → α)
    (hput : ∀ d s s', put (put d s) s' = put d s') (src dst : List α) (i : Nat) (d : α)
    (hd : dst[i]? = some d) :
    (upds key put (indexOf key dst) src dst)[i]? = some (merged key put src dst i d) := by
  rw [upds_getElem? key put _ hput, hd]
  simp only [Option.map_some', merged]
  cases hk : key d with
  | none =>
    have : lastWith (hits key (indexOf key dst) i) src = lastWith (fun _ => false) src :=
      lastWith_congr _ _ src (fun s _ => by rw [hits_indexOf key dst i d hd, hk])
    rw [this]
    have hn : lastWith (fun _ => false) src = none :=
      (lastWith_eq_none_iff _ src).mpr (fun _ _ => rfl)
    rw [hn]
  | some k =>
    by_cases hi : indexOf key dst k = some i
    · have : lastWith (hits key (indexOf key dst) i) src = lastWith (hasKey key k) src :=
        lastWith_congr _ _ src (fun s _ => by rw [hits_indexOf key dst i d hd, hk]; simp [hi])
      rw [this]
      simp [hi]
    · have : lastWith (hits key (indexOf key dst) i) src = lastWith (fun _ => false) src :=
        lastWith_congr _ _ src (fun s _ => by rw [hits_indexOf key dst i d hd, hk]; simp [hi])
      rw [this]
      have hn : lastWith (fun _ => false) src = none :=
        (lastWith_eq_none_iff _ src).mpr (fun _ _ => rfl)
      rw [hn]
      simp [hi]

theorem run_getElem?_lt (key : α → Option κ) (put : α → α → α)
    (hput : ∀ d s s', put (put d s) s' = put d s') (src dst : List α) (i : Nat) (d : α)
    (hd : dst[i]? = some d) :
    (run key put src dst)[i]? = some (merged key put src dst i d) := by
  have hlt : i < dst.length := (List.getElem?_eq_some.mp hd).1
  rw [run_eq, List.getElem?_append_left (by rw [upds_length]; exact hlt)]
  exact upds_indexOf_getElem? key put hput src dst i d hd

theorem run_take (key : α → Option κ) (put : α → α → α) (src dst : List α) :
    (run key put src dst).take dst.length = upds key put (indexOf key dst) src dst := by
  rw [run_eq]
  have h := List.take_left (upds key put (indexOf key dst) src dst)
    (src.filter (isNew key (indexOf key dst)))
  rwa [upds_length] at h

theorem run_drop (key : α → Option κ) (put : α → α → α) (src dst : List α) :
    (run key put src dst).drop dst.length = src.filter (isNew key (indexOf key dst)) := by
  rw [run_eq]
  have h := List.drop_left (upds key put (indexOf key dst) src dst)
    (src.filter (isNew key (indexOf key dst)))
  rwa [upds_length] at h

theorem isNew_indexOf (key : α → Option κ) (dst : List α) (s : α) :
    isNew key (indexOf key dst) s =
      match key s with
      | some k => dst.all (fun d => decide (key d ≠ some k))
      | none => false := by
  unfold isNew
  cases hs : key s with
  | none => rfl
  | some k =>
    simp only []
    by_cases h : indexOf key dst k = none
    · rw [h]
      have := (indexOf_eq_none_iff key dst k).mp h
      simpa using this
    · have h2 : ¬ ∀ e ∈ dst, key e ≠ some k := fun hh => h ((indexOf_eq_none_iff key dst k).mpr hh)
      cases hi : indexOf key dst k with
      | none => exact absurd hi h
      | some i =>
        simp only [Option.isNone_some]
        symm
        rw [Bool.eq_false_iff]
        intro hall
        exact h2 (by simpa using hall)

end Core

/-! ## The two merges are instances of the common shape -/

theorem dstKeyNodes_eq :
    ∀ (l : List MappingValueNode) (i : Nat) (m : String → Option Nat),
      dstKeyNodes l i m = Core.index entryKey l i m := by
  intro l
  induction l with
  | nil => intro i m; rfl
  | cons a l ih =>
    intro i m
    simp only [dstKeyNodes, Core.index, entryKey]
    cases stringValue a.Key with
    | none => exact ih _ _
    | some v => exact ih _ _

theorem mergeLoop_eq (idx : String → Option Nat) :
    ∀ (src values : List MappingValueNode),
      mergeLoop idx src values = Core.loop entryKey putValue idx src values := by
  intro src
  induction src with
  | nil => intro values; rfl
  | cons s rest ih =>
    intro values
    simp only [mergeLoop, Core.loop, entryKey]
    cases stringValue s.Key with
    | none => exact ih _
    | some k =>
      simp only []
      cases idx k with
      | none => exact ih _
      | some i =>
        have hset : setValue values i s.Value = Core.setAt putValue values i s := by
          unfold setValue Core.setAt
          cases values[i]? <;> rfl
        simp only [hset]
        exact ih _

theorem mergeAST_eq (src dst : List MappingValueNode) :
    mergeAST src dst = Core.run entryKey putValue src dst := by
  unfold mergeAST Core.run Core.indexOf
  rw [dstKeyNodes_eq, mergeLoop_eq]

theorem putValue_putValue (d s s' : MappingValueNode) :
    putValue (putValue d s) s' = putValue d s' := rfl

theorem lastWithKey_iff (l : List MappingValueNode) (k : String) (i : Nat)
    (e : MappingValueNode) :
    LastWithKey l k i e ↔ Core.IsLast (Core.hasKey entryKey k) l i e := by
  simp [LastWithKey, Core.IsLast, Core.hasKey]

theorem isNewEntry_eq (dst : List MappingValueNode) :
    Core.isNew entryKey (Core.indexOf entryKey dst) = isNewEntry dst := by
  funext s
  rw [Core.isNew_indexOf]
  unfold isNewEntry
  cases entryKey s with
  | none => rfl
  | some k => simp

/-! ## The AST merge, position by position -/

theorem mergeAST_getElem?_lt (src dst : List MappingValueNode) (i : Nat)
    (d : MappingValueNode) (hd : dst[i]? = some d) :
    (mergeAST src dst)[i]? = some (Core.merged entryKey putValue src dst i d) := by
  rw [mergeAST_eq]
  exact Core.run_getElem?_lt entryKey putValue putValue_putValue src dst i d hd

theorem mergeAST_drop (src dst : List MappingValueNode) :
    (mergeAST src dst).drop dst.length = src.filter (isNewEntry dst) := by
  rw [mergeAST_eq, Core.run_drop, isNewEntry_eq]

theorem mergeAST_split (src dst : List MappingValueNode) :
    mergeAST src dst = (mergeAST src dst).take dst.length ++ src.filter (isNewEntry dst) := by
  rw [← mergeAST_drop, List.take_append_drop]

theorem mergeAST_length (src dst : List MappingValueNode) :
    (mergeAST src dst).length = dst.length + (src.filter (isNewEntry dst)).length := by
  rw [mergeAST_eq, Core.run_eq, List.length_append, Core.upds_length, isNewEntry_eq]

theorem merged_Key (src dst : List MappingValueNode) (i : Nat) (d : MappingValueNode) :
    (Core.merged entryKey putValue src dst i d).Key = d.Key := by
  unfold Core.merged
  cases entryKey d with
  | none => rfl
  | some k =>
    simp only []
    split
    · cases Core.lastWith (Core.hasKey entryKey k) src with
      | none => rfl
      | some x => rfl
    · rfl

theorem mergeAST_take_getElem? (src dst : List MappingValueNode) (i : Nat) :
    ((mergeAST src dst).take dst.length)[i]? =
      dst[i]?.map (fun d => Core.merged entryKey putValue src dst i d) := by
  by_cases hi : i < dst.length
  · rw [List.getElem?_take_of_lt hi, List.getElem?_eq_getElem hi,
      mergeAST_getElem?_lt src dst i dst[i] (List.getElem?_eq_getElem hi)]
    rfl
  · have h1 : dst[i]? = none := List.getElem?_eq_none (by omega)
    have h2 : ((mergeAST src dst).take dst.length).length ≤ i := by
      rw [List.length_take]; omega
    rw [h1, List.getElem?_eq_none h2]
    rfl

theorem mergeAST_take_keys (src dst : List MappingValueNode) :
    ((mergeAST src dst).take dst.length).map (fun e => e.Key) = dst.map (fun e => e.Key) := by
  apply List.ext_getElem?
  intro i
  rw [List.getElem?_map, List.getElem?_map, mergeAST_take_getElem?]
  cases dst[i]? with
  | none => rfl
  | some d => simp [merged_Key]

/-! ## What the merge leaves at a destination position -/

theorem exists_lastWithKey (l : List MappingValueNode) (k : String)
    (h : ∃ e ∈ l, entryKey e = some k) : ∃ i e, LastWithKey l k i e := by
  obtain ⟨e0, he0, hk0⟩ := h
  cases hl : Core.lastWith (Core.hasKey entryKey k) l with
  | none =>
    have := (Core.lastWith_eq_none_iff _ l).mp hl e0 he0
    simp [Core.hasKey, hk0] at this
  | some x =>
    obtain ⟨i, e⟩ := x
    exact ⟨i, e, (lastWithKey_iff l k i e).mpr ((Core.lastWith_eq_some_iff _ l i e).mp hl)⟩

theorem lastWithKey_unique (l : List MappingValueNode) (k : String) (i i' : Nat)
    (e e' : MappingValueNode) (h : LastWithKey l k i e) (h' : LastWithKey l k i' e') :
    i = i' ∧ e = e' :=
  Core.isLast_unique _ l i i' e e' ((lastWithKey_iff l k i e).mp h)
    ((lastWithKey_iff l k i' e').mp h')

theorem indexOf_eq_some_of_last (l : List MappingValueNode) (k : String) (i : Nat)
    (e : MappingValueNode) (h : LastWithKey l k i e) :
    Core.indexOf entryKey l k = some i :=
  (Core.indexOf_eq_some_iff entryKey l k i).mpr ⟨e, (lastWithKey_iff l k i e).mp h⟩

theorem last_of_indexOf_eq_some (l : List MappingValueNode) (k : String) (i : Nat)
    (d : MappingValueNode) (hd : l[i]? = some d)
    (h : Core.indexOf entryKey l k = some i) : LastWithKey l k i d := by
  obtain ⟨e, he⟩ := (Core.indexOf_eq_some_iff entryKey l k i).mp h
  have hl := (lastWithKey_iff l k i e).mpr he
  have : e = d := by
    have h1 := hl.1
    rw [hd] at h1
    exact (Option.some.inj h1).symm
  exact this ▸ hl

theorem merged_of_no_key (src dst : List MappingValueNode) (i : Nat) (d : MappingValueNode)
    (h : entryKey d = none) : Core.merged entryKey putValue src dst i d = d := by
  simp [Core.merged, h]

theorem merged_of_no_src (src dst : List MappingValueNode) (i : Nat) (d : MappingValueNode)
    (k : String) (hk : entryKey d = some k) (h : ∀ s ∈ src, entryKey s ≠ some k) :
    Core.merged entryKey putValue src dst i d = d := by
  have hn : Core.lastWith (Core.hasKey entryKey k) src = none :=
    (Core.lastWith_eq_none_iff _ src).mpr (fun s hs => by simpa [Core.hasKey] using h s hs)
  simp [Core.merged, hk, hn]

theorem merged_of_not_last (src dst : List MappingValueNode) (i : Nat) (d : MappingValueNode)
    (k : String) (hd : dst[i]? = some d) (hk : entryKey d = some k)
    (h : ¬ LastWithKey dst k i d) :
    Core.merged entryKey putValue src dst i d = d := by
  have hi : Core.indexOf entryKey dst k ≠ some i :=
    fun hh => h (last_of_indexOf_eq_some dst k i d hd hh)
  simp [Core.merged, hk, hi]

theorem merged_of_last (src dst : List MappingValueNode) (k : String) (i j : Nat)
    (d s : MappingValueNode) (hd : LastWithKey dst k i d) (hs : LastWithKey src k j s) :
    Core.merged entryKey putValue src dst i d = { Key := d.Key, Value := s.Value } := by
  have hi := indexOf_eq_some_of_last dst k i d hd
  have hl : Core.lastWith (Core.hasKey entryKey k) src = some (j, s) :=
    (Core.lastWith_eq_some_iff _ src j s).mpr ((lastWithKey_iff src k j s).mp hs)
  simp [Core.merged, hd.2.1, hi, hl, putValue]

theorem appended_key_absent (src dst : List MappingValueNode) (k : String)
    (hd : ∃ d ∈ dst, entryKey d = some k) :
    ∀ e ∈ (mergeAST src dst).drop dst.length, entryKey e ≠ some k := by
  intro e he hk
  rw [mergeAST_drop, List.mem_filter] at he
  obtain ⟨d, hd1, hd2⟩ := hd
  have h := he.2
  simp only [isNewEntry, hk, List.all_eq_true, decide_eq_true_eq] at h
  exact h d hd1 hd2

theorem dstKeyNodes_of_last (dst : List MappingValueNode) (k : String) (i : Nat)
    (d : MappingValueNode) (h : LastWithKey dst k i d) :
    dstKeyNodes dst 0 (fun _ => none) k = some i := by
  rw [dstKeyNodes_eq]
  exact indexOf_eq_some_of_last dst k i d h

/-! ## Merging the same source again -/

theorem take_key_mem (src dst : List MappingValueNode) (e : MappingValueNode)
    (he : e ∈ (mergeAST src dst).take dst.length) : ∃ d ∈ dst, d.Key = e.Key := by
  have h1 : e.Key ∈ ((mergeAST src dst).take dst.length).map (fun e => e.Key) :=
    List.mem_map_of_mem _ he
  rw [mergeAST_take_keys, List.mem_map] at h1
  exact h1

theorem Core.lastWith_filter {α : Type} (p q : α → Bool) :
    ∀ (l : List α), (∀ e ∈ l, q e = true → p e = true) →
      (Core.lastWith q (l.filter p)).map Prod.snd = (Core.lastWith q l).map Prod.snd := by
  intro l
  induction l with
  | nil => intro _; rfl
  | cons a l ih =>
    intro h
    have ih' := ih (fun e he => h e (List.mem_cons_of_mem a he))
    by_cases hp : p a = true
    · rw [List.filter_cons_of_pos hp]
      simp only [Core.lastWith]
      cases h1 : Core.lastWith q (List.filter p l) with
      | none =>
        rw [h1] at ih'
        cases h2 : Core.lastWith q l with
        | none => simp only []
        | some y => rw [h2] at ih'; cases ih'
      | some x =>
        rw [h1] at ih'
        cases h2 : Core.lastWith q l with
        | none => rw [h2] at ih'; cases ih'
        | some y =>
          rw [h2] at ih'
          simpa using ih'
    · have hq : q a = false := by
        cases hqa : q a with
        | false => rfl
        | true => exact absurd (h a (List.mem_cons_self a l) hqa) hp
      rw [List.filter_cons_of_neg hp, ih']
      simp only [Core.lastWith, hq]
      cases Core.lastWith q l with
      | none => rfl
      | some y => rfl

theorem lastWithKey_filter (l : List MappingValueNode) (p : MappingValueNode → Bool)
    (k : String) (j : Nat) (s : MappingValueNode) (hl : LastWithKey l k j s)
    (hp : ∀ e ∈ l, entryKey e = some k → p e = true) :
    ∃ j', LastWithKey (l.filter p) k j' s := by
  have h1 : Core.lastWith (Core.hasKey entryKey k) l = some (j, s) :=
    (Core.lastWith_eq_some_iff _ l j s).mpr ((lastWithKey_iff l k j s).mp hl)
  have h2 := Core.lastWith_filter p (Core.hasKey entryKey k) l
    (fun e he hq => hp e he (by simpa [Core.hasKey] using hq))
  rw [h1] at h2
  cases h3 : Core.lastWith (Core.hasKey entryKey k) (l.filter p) with
  | none => rw [h3] at h2; cases h2
  | some x =>
    obtain ⟨j', e⟩ := x
    rw [h3] at h2
    simp only [Option.map_some', Option.some.injEq] at h2
    subst h2
    exact ⟨j', (lastWithKey_iff _ k j' e).mpr ((Core.lastWith_eq_some_iff _ _ j' e).mp h3)⟩

theorem lastWithKey_append_right (l1 l2 : List MappingValueNode) (k : String) (j : Nat)
    (s : MappingValueNode) (hl : LastWithKey l2 k j s) :
    LastWithKey (l1 ++ l2) k (l1.length + j) s := by
  obtain ⟨h1, h2, h3⟩ := hl
  refine ⟨?_, h2, ?_⟩
  · rw [List.getElem?_append_right (by omega)]
    simpa using h1
  · intro i' e' hi' he'
    rw [List.getElem?_append_right (by omega)] at he'
    exact h3 (i' - l1.length) e' (by omega) he'

/-- A merge changes nothing when, for each key, the last source entry with
that key has the value node of the last destination entry with that key. -/
theorem mergeAST_eq_self (src dst : List MappingValueNode)
    (h : ∀ k j s, LastWithKey src k j s → ∃ i d, LastWithKey dst k i d ∧ d.Value = s.Value) :
    mergeAST src dst = dst := by
  have hnew : src.filter (isNewEntry dst) = [] := by
    rw [List.filter_eq_nil_iff]
    intro s hs hn
    cases hk : entryKey s with
    | none => simp [isNewEntry, hk] at hn
    | some k =>
      obtain ⟨j, s', hl'⟩ := exists_lastWithKey src k ⟨s, hs, hk⟩
      obtain ⟨i, d, hl, _⟩ := h k j s' hl'
      simp only [isNewEntry, hk, List.all_eq_true, decide_eq_true_eq] at hn
      exact hn d (List.getElem?_mem hl.1) hl.2.1
  rw [mergeAST_split, hnew, List.append_nil]
  apply List.ext_getElem?
  intro i
  rw [mergeAST_take_getElem?]
  cases hd : dst[i]? with
  | none => rfl
  | some d =>
    simp only [Option.map_some', Option.some.injEq]
    cases hk : entryKey d with
    | none => exact merged_of_no_key src dst i d hk
    | some k =>
      by_cases hl : LastWithKey dst k i d
      · by_cases hs : ∃ s ∈ src, entryKey s = some k
        · obtain ⟨j, s, hsl⟩ := exists_lastWithKey src k hs
          rw [merged_of_last src dst k i j d s hl hsl]
          obtain ⟨i', d', hl', hv⟩ := h k j s hsl
          obtain ⟨_, rfl⟩ := lastWithKey_unique dst k i' i d' d hl' hl
          rw [← hv]
        · have hs' : ∀ s ∈ src, entryKey s ≠ some k := fun s hm hk' => hs ⟨s, hm, hk'⟩
          exact merged_of_no_src src dst i d k hk hs'
      · exact merged_of_not_last src dst i d k hd hk hl

/-- After a merge, the last entry with a source key carries the value node of
the last source entry with that key. -/
theorem mergeAST_last (src dst : List MappingValueNode) (k : String) (j : Nat)
    (s : MappingValueNode) (hs : LastWithKey src k j s) :
    ∃ i d, LastWithKey (mergeAST src dst) k i d ∧ d.Value = s.Value := by
  by_cases hex : ∃ d ∈ dst, entryKey d = some k
  · obtain ⟨i, d, hd⟩ := exists_lastWithKey dst k hex
    have hi : i < dst.length := (List.getElem?_eq_some.mp hd.1).1
    refine ⟨i, { Key := d.Key, Value := s.Value }, ⟨?_, hd.2.1, ?_⟩, rfl⟩
    · rw [mergeAST_getElem?_lt src dst i d hd.1, merged_of_last src dst k i j d s hd hs]
    · intro i' e' hi' he'
      by_cases hlt : i' < dst.length
      · have hd' : dst[i']? = some dst[i'] := List.getElem?_eq_getElem hlt
        rw [mergeAST_getElem?_lt src dst i' dst[i'] hd'] at he'
        have hkey : e'.Key = dst[i'].Key := by
          rw [← Option.some.inj he']; exact merged_Key src dst i' dst[i']
        have := hd.2.2 i' dst[i'] hi' hd'
        simpa [entryKey, hkey] using this
      · apply appended_key_absent src dst k hex e'
        apply List.getElem?_mem (n := i' - dst.length)
        rw [List.getElem?_drop]
        rw [← he']
        congr 1
        omega
  · have habs : ∀ d ∈ dst, entryKey d ≠ some k := fun d hd hk => hex ⟨d, hd, hk⟩
    obtain ⟨j', hj'⟩ := lastWithKey_filter src (isNewEntry dst) k j s hs (by
      intro e _ hk
      simp only [isNewEntry, hk, List.all_eq_true, decide_eq_true_eq]
      exact habs)
    refine ⟨((mergeAST src dst).take dst.length).length + j', s, ?_, rfl⟩
    have := lastWithKey_append_right ((mergeAST src dst).take dst.length) _ k j' s hj'
    rwa [← mergeAST_split] at this

/-! ## The legacy merge -/

theorem dstMap_eq {K V : Type} [DecidableEq K] :
    ∀ (l : MapSlice K V) (i : Nat) (m : K → Option Nat),
      dstMap l i m = Core.index itemKey l i m := by
  intro l
  induction l with
  | nil => intro i m; rfl
  | cons a l ih =>
    intro i m
    simp only [dstMap, Core.index, itemKey]
    exact ih _ _

theorem mergeItems_eq {K V : Type} [DecidableEq K] (idx : K → Option Nat) :
    ∀ (src dst : MapSlice K V),
      mergeItems idx src dst = Core.loop itemKey putItem idx src dst := by
  intro src
  induction src with
  | nil => intro dst; rfl
  | cons s rest ih =>
    intro dst
    simp only [mergeItems, Core.loop, itemKey]
    cases idx s.Key with
    | none => exact ih _
    | some i =>
      have hset : setItemValue dst i s.Value = Core.setAt putItem dst i s := by
        unfold setItemValue Core.setAt
        cases dst[i]? <;> rfl
      simp only [hset]
      exact ih _

theorem merge_eq {K V : Type} [DecidableEq K] (src dst : MapSlice K V) :
    merge src dst = Core.run itemKey putItem src dst := by
  unfold merge Core.run Core.indexOf
  rw [dstMap_eq, mergeItems_eq]

theorem Core.lastWith_snd {α : Type} (p : α → Bool) :
    ∀ (l : List α), (Core.lastWith p l).map Prod.snd = (l.filter p).getLast? := by
  intro l
  induction l with
  | nil => rfl
  | cons a l ih =>
    simp only [Core.lastWith]
    by_cases hp : p a = true
    · rw [List.filter_cons_of_pos hp, List.getLast?_cons, ← ih]
      cases Core.lastWith p l with
      | none => simp [hp]
      | some x => simp
    · rw [List.filter_cons_of_neg hp, ← ih]
      cases Core.lastWith p l with
      | none => simp [hp]
      | some x => simp

theorem Core.upds_indexOf_map {α κ : Type} [DecidableEq κ] (key : α → Option κ)
    (put : α → α → α) (hput : ∀ d s s', put (put d s) s' = put d s') (src dst : List α)
    (i : Nat) :
    (Core.upds key put (Core.indexOf key dst) src dst)[i]? =
      dst[i]?.map (Core.merged key put src dst i) := by
  cases hd : dst[i]? with
  | some d => exact Core.upds_indexOf_getElem? key put hput src dst i d hd
  | none =>
    have hlen : dst.length ≤ i := by
      by_contra hlt
      rw [List.getElem?_eq_getElem (by omega)] at hd
      cases hd
    exact List.getElem?_eq_none (by rw [Core.upds_length]; exact hlen)

theorem indexOf_itemKey_iff {K V : Type} [DecidableEq K] (dst : MapSlice K V) (i : Nat)
    (d : MapItem K V) (hd : dst[i]? = some d) :
    Core.indexOf itemKey dst d.Key = some i ↔
      (dst.drop (i + 1)).all (fun e => decide (e.Key ≠ d.Key)) = true := by
  rw [Core.indexOf_eq_some_iff, List.all_eq_true]
  constructor
  · rintro ⟨e, _, _, h3⟩ x hx
    obtain ⟨j, hj⟩ := List.mem_iff_getElem?.mp hx
    rw [List.getElem?_drop] at hj
    have := h3 (i + 1 + j) x (by omega) hj
    simpa [Core.hasKey, itemKey] using this
  · intro h
    refine ⟨d, hd, by simp [Core.hasKey, itemKey], ?_⟩
    intro j' e' hj' he'
    have hmem : e' ∈ dst.drop (i + 1) := by
      apply List.getElem?_mem (n := j' - (i + 1))
      rw [List.getElem?_drop, ← he']
      congr 1
      omega
    have := h e' hmem
    simpa [Core.hasKey, itemKey] using this

theorem lastValue_eq {K V : Type} [DecidableEq K] (src : MapSlice K V) (k : K) :
    lastValue src k =
      (Core.lastWith (Core.hasKey itemKey k) src).map (fun x => x.2.Value) := by
  have h := Core.lastWith_snd (Core.hasKey itemKey k) src
  have hf : (fun s : MapItem K V => decide (s.Key = k)) = Core.hasKey itemKey k := by
    funext s
    simp [Core.hasKey, itemKey]
  unfold lastValue
  rw [hf, ← h]
  cases Core.lastWith (Core.hasKey itemKey k) src with
  | none => rfl
  | some x => rfl

theorem merge_eq_mergeSpec {K V : Type} [DecidableEq K] (src dst : MapSlice K V) :
    merge src dst = mergeSpec src dst := by
  rw [merge_eq, Core.run_eq]
  unfold mergeSpec
  congr 1
  · apply List.ext_getElem?
    intro i
    rw [Core.upds_indexOf_map itemKey putItem (fun _ _ _ => rfl), List.getElem?_mapIdx]
    cases hd : dst[i]? with
    | none => rfl
    | some d =>
      simp only [Option.map_some', Option.some.injEq]
      unfold Core.merged
      simp only [itemKey]
      rw [lastValue_eq]
      by_cases hi : Core.indexOf itemKey dst d.Key = some i
      · have hall := (indexOf_itemKey_iff dst i d hd).mp hi
        rw [if_pos hi, if_pos hall]
        cases Core.lastWith (Core.hasKey itemKey d.Key) src with
        | none => rfl
        | some x => rfl
      · have hall : ¬ (dst.drop (i + 1)).all (fun e => decide (e.Key ≠ d.Key)) = true :=
          fun h => hi ((indexOf_itemKey_iff dst i d hd).mpr h)
        rw [if_neg hi, if_neg hall]
  · apply List.filter_congr
    intro s _
    rw [Core.isNew_indexOf]
    simp [itemKey]

theorem merge_nil {K V : Type} [DecidableEq K] :
    ∀ (src acc : MapSlice K V),
      mergeItems (fun _ => (none : Option Nat)) src acc = acc ++ src := by
  intro src
  induction src with
  | nil => intro acc; simp [mergeItems]
  | cons s rest ih =>
    intro acc
    simp only [mergeItems]
    rw [ih]
    simp

/-! ## `ProcessFiles` outside the empty file -/

/-- When the parser never yields a file without documents, `ProcessFiles`
ends by returning nil or an error value. -/
theorem ProcessFiles_returned (w : World) (srcPath dstPath : String)
    (hdocs : ∀ text f, w.parseBytes text = .ok f → f.Docs ≠ []) :
    ∃ err, (ProcessFiles w srcPath dstPath).1 = .returned err := by
  cases h1 : w.readFile srcPath with
  | error e => simp only [ProcessFiles, h1]; exact ⟨_, rfl⟩
  | ok srcBytes =>
  cases h2 : w.readFile dstPath with
  | error e => simp only [ProcessFiles, h1, h2]; exact ⟨_, rfl⟩
  | ok dstBytes =>
  cases h3 : w.parseBytes srcBytes with
  | error e => simp only [ProcessFiles, h1, h2, h3]; exact ⟨_, rfl⟩
  | ok srcAST =>
  cases h4 : w.parseBytes dstBytes with
  | error e => simp only [ProcessFiles, h1, h2, h3, h4]; exact ⟨_, rfl⟩
  | ok dstAST =>
  cases h5 : srcAST.Docs with
  | nil => exact absurd h5 (hdocs srcBytes srcAST h3)
  | cons srcDoc srcRest =>
  cases h6 : asMappingNode srcDoc.Body with
  | none => simp only [ProcessFiles, h1, h2, h3, h4, h5, h6]; exact ⟨_, rfl⟩
  | some srcValues =>
  cases h7 : dstAST.Docs with
  | nil => exact absurd h7 (hdocs dstBytes dstAST h4)
  | cons dstDoc dstRest =>
  cases h8 : asMappingNode dstDoc.Body with
  | none => simp only [ProcessFiles, h1, h2, h3, h4, h5, h6, h7, h8]; exact ⟨_, rfl⟩
  | some dstValues =>
  cases h9 : w.openFile dstPath with
  | some e => simp only [ProcessFiles, h1, h2, h3, h4, h5, h6, h7, h8, h9]; exact ⟨_, rfl⟩
  | none =>
  simp only [ProcessFiles, h1, h2, h3, h4, h5, h6, h7, h8, h9]
  split
  · exact ⟨_, rfl⟩
  · exact ⟨_, rfl⟩

/-! ## The claims -/

/-- C1, order contract: when the string-scalar keys of `src` are pairwise
distinct, the merged list has length `len(dst) + n`, its first `len(dst)`
entries carry the key nodes of `dst` in order, and its last `n` entries are
the source entries whose key is a string scalar that is no key of `dst`, in
source order and unchanged (entries with a non-string key never appear). -/
theorem C1_order_contract (src dst : List MappingValueNode)
    (_hdistinct : (src.filterMap entryKey).Nodup) :
    (mergeAST src dst).length = dst.length + (src.filter (isNewEntry dst)).length ∧
    ((mergeAST src dst).take dst.length).map (fun e => e.Key) = dst.map (fun e => e.Key) ∧
    (mergeAST src dst).drop dst.length = src.filter (isNewEntry dst) ∧
    ∀ e ∈ (mergeAST src dst).drop dst.length, entryKey e ≠ none :=
  ⟨mergeAST_length src dst, mergeAST_take_keys src dst, mergeAST_drop src dst, by
    intro e he
    rw [mergeAST_drop, List.mem_filter] at he
    intro hn
    have h := he.2
    simp [isNewEntry, hn] at h⟩

/-- C1 at the documents of `TestProcessFiles`. -/
theorem C1_order_contract_witness :
    (testSrc.filterMap entryKey).Nodup ∧
    ((mergeAST testSrc testDst).length =
        testDst.length + (testSrc.filter (isNewEntry testDst)).length ∧
      ((mergeAST testSrc testDst).take testDst.length).map (fun e => e.Key) =
        testDst.map (fun e => e.Key) ∧
      (mergeAST testSrc testDst).drop testDst.length = testSrc.filter (isNewEntry testDst) ∧
      ∀ e ∈ (mergeAST testSrc testDst).drop testDst.length, entryKey e ≠ none) :=
  ⟨by decide, C1_order_contract testSrc testDst (by decide)⟩

/-- C2, overwrite keeps the destination key: when `k` is the decoded key of a
string-keyed source entry and of a destination entry, the index holds for `k`
the last destination entry with key `k`; after the merge that entry keeps its
key node and has the value node of the last source entry with key `k`, and no
appended entry has key `k`. -/
theorem C2_overwrite_keeps_key (src dst : List MappingValueNode) (k : String)
    (s0 d0 : MappingValueNode) (hs0 : s0 ∈ src) (hsk : entryKey s0 = some k)
    (hd0 : d0 ∈ dst) (hdk : entryKey d0 = some k) :
    ∃ i d j s, LastWithKey dst k i d ∧ LastWithKey src k j s ∧
      dstKeyNodes dst 0 (fun _ => none) k = some i ∧
      (mergeAST src dst)[i]? = some { Key := d.Key, Value := s.Value } ∧
      ∀ e ∈ (mergeAST src dst).drop dst.length, entryKey e ≠ some k := by
  obtain ⟨i, d, hd⟩ := exists_lastWithKey dst k ⟨d0, hd0, hdk⟩
  obtain ⟨j, s, hs⟩ := exists_lastWithKey src k ⟨s0, hs0, hsk⟩
  refine ⟨i, d, j, s, hd, hs, dstKeyNodes_of_last dst k i d hd, ?_,
    appended_key_absent src dst k ⟨d0, hd0, hdk⟩⟩
  rw [mergeAST_getElem?_lt src dst i d hd.1, merged_of_last src dst k i j d s hd hs]

/-- C2 at the documents of `TestProcessFiles`, for the key `key2`. -/
theorem C2_overwrite_keeps_key_witness :
    ∃ i d j s, LastWithKey testDst "key2" i d ∧ LastWithKey testSrc "key2" j s ∧
      dstKeyNodes testDst 0 (fun _ => none) "key2" = some i ∧
      (mergeAST testSrc testDst)[i]? = some { Key := d.Key, Value := s.Value } ∧
      ∀ e ∈ (mergeAST testSrc testDst).drop testDst.length, entryKey e ≠ some "key2" :=
  C2_overwrite_keeps_key testSrc testDst "key2"
    (entry (quoted "key2") (plain "value2_src")) (entry (quoted "key2") (plain "value2"))
    (by decide) (by decide) (by decide) (by decide)

/-- C3, untouched-entry fidelity: a destination entry whose key is not a
string scalar, or whose decoded key is the key of no string-keyed source
entry, stands after the merge at the same position with the same key node
and the same value node. -/
theorem C3_untouched_entry (src dst : List MappingValueNode) (i : Nat)
    (d : MappingValueNode) (hd : dst[i]? = some d)
    (h : entryKey d = none ∨ ∃ k, entryKey d = some k ∧ ∀ s ∈ src, entryKey s ≠ some k) :
    (mergeAST src dst)[i]? = some d := by
  rw [mergeAST_getElem?_lt src dst i d hd]
  rcases h with h | ⟨k, hk, hs⟩
  · rw [merged_of_no_key src dst i d h]
  · rw [merged_of_no_src src dst i d k hk hs]

/-- C3 at the documents of `TestProcessFiles`, for the entry `'key3': value3`. -/
theorem C3_untouched_entry_witness :
    (mergeAST testSrc testDst)[1]? = some (entry (quoted "key3") (plain "value3")) :=
  C3_untouched_entry testSrc testDst 1 (entry (quoted "key3") (plain "value3")) (by decide)
    (Or.inr ⟨"key3", by decide, by decide⟩)

/-- C4 fails as stated: with an empty destination and the source `k: a`,
`k: b`, the merged list is the source itself, with two entries of key `k`
and the first one still carrying the value `a`. -/
theorem C4_counterexample :
    (∀ d ∈ ([] : List MappingValueNode), entryKey d ≠ some "k") ∧
    1 < (dupSrc.filter (keyIs "k")).length ∧
    mergeAST dupSrc [] = [entry (plain "k") (plain "a"), entry (plain "k") (plain "b")] ∧
    ((mergeAST dupSrc []).filter (keyIs "k")).length ≠ 1 := by
  decide

/-- C4 as amended: when the string key `k` is the key of no destination entry
and occurs more than once in the source, every source occurrence is appended:
no entry among the first `len(dst)` has key `k`, and the appended entries
with key `k` are exactly the source entries with key `k`, in source order,
each with its own key node and value node. -/
theorem C4_duplicates_all_appended (src dst : List MappingValueNode) (k : String)
    (habs : ∀ d ∈ dst, entryKey d ≠ some k)
    (_hdup : 1 < (src.filter (keyIs k)).length) :
    ((mergeAST src dst).take dst.length).filter (keyIs k) = [] ∧
    ((mergeAST src dst).drop dst.length).filter (keyIs k) = src.filter (keyIs k) := by
  constructor
  · rw [List.filter_eq_nil_iff]
    intro e he hk
    obtain ⟨d, hd, hkey⟩ := take_key_mem src dst e he
    apply habs d hd
    have : entryKey e = some k := by simpa [keyIs] using hk
    simpa [entryKey, hkey] using this
  · rw [mergeAST_drop, List.filter_filter]
    apply List.filter_congr
    intro s _
    by_cases hk : entryKey s = some k
    · have : isNewEntry dst s = true := by
        simp only [isNewEntry, hk, List.all_eq_true, decide_eq_true_eq]
        exact habs
      simp [keyIs, hk, this]
    · simp [keyIs, hk]

/-- C4 as amended, at an empty destination and the source `k: a`, `k: b`. -/
theorem C4_duplicates_all_appended_witness :
    ((mergeAST dupSrc []).take ([] : List MappingValueNode).length).filter (keyIs "k") = [] ∧
    ((mergeAST dupSrc []).drop ([] : List MappingValueNode).length).filter (keyIs "k") =
      dupSrc.filter (keyIs "k") :=
  C4_duplicates_all_appended dupSrc [] "k" (by decide) (by decide)

/-- C5, non-mapping rejection without write: when both files are read and
parsed, a source whose first document body is not a mapping makes
`ProcessFiles` return "source YAML is not a map"; otherwise a destination
whose first document body is not a mapping makes it return "destination YAML
is not a map"; in both cases no file is opened for writing, truncated or
written. -/
theorem C5_non_mapping_rejection (w : World) (srcPath dstPath srcBytes dstBytes : String)
    (srcAST dstAST : File)
    (hrs : w.readFile srcPath = .ok srcBytes) (hrd : w.readFile dstPath = .ok dstBytes)
    (hps : w.parseBytes srcBytes = .ok srcAST) (hpd : w.parseBytes dstBytes = .ok dstAST) :
    (∀ srcDoc srcRest, srcAST.Docs = srcDoc :: srcRest → asMappingNode srcDoc.Body = none →
      ProcessFiles w srcPath dstPath = (.returned (some "source YAML is not a map"), [])) ∧
    (∀ srcDoc srcRest srcValues dstDoc dstRest,
      srcAST.Docs = srcDoc :: srcRest → asMappingNode srcDoc.Body = some srcValues →
      dstAST.Docs = dstDoc :: dstRest → asMappingNode dstDoc.Body = none →
      ProcessFiles w srcPath dstPath =
        (.returned (some "destination YAML is not a map"), [])) := by
  constructor
  · intro srcDoc srcRest hdocs hbody
    simp only [ProcessFiles, hrs, hrd, hps, hpd, hdocs, hbody]
  · intro srcDoc srcRest srcValues dstDoc dstRest hdocs hbody hdocs' hbody'
    simp only [ProcessFiles, hrs, hrd, hps, hpd, hdocs, hbody, hdocs', hbody']

/-- C5 at a source that is a sequence and at a destination that is a scalar. -/
theorem C5_non_mapping_rejection_witness :
    ProcessFiles seqSrcWorld "src.yaml" "dst.yaml" =
      (.returned (some "source YAML is not a map"), []) ∧
    ProcessFiles scalarDstWorld "src.yaml" "dst.yaml" =
      (.returned (some "destination YAML is not a map"), []) :=
  ⟨(C5_non_mapping_rejection seqSrcWorld "src.yaml" "dst.yaml" "- a" "k: v"
      { Docs := [{ Body := .other "- a" }] }
      { Docs := [{ Body := .mappingNode [entry (plain "k") (plain "v")] }] }
      rfl rfl rfl rfl).1
      { Body := .other "- a" } [] rfl rfl,
    (C5_non_mapping_rejection scalarDstWorld "src.yaml" "dst.yaml" "k: v" "hello"
      { Docs := [{ Body := .mappingNode [entry (plain "k") (plain "v")] }] }
      { Docs := [{ Body := .other "hello" }] }
      rfl rfl rfl rfl).2
      { Body := .mappingNode [entry (plain "k") (plain "v")] } []
      [entry (plain "k") (plain "v")] { Body := .other "hello" } [] rfl rfl rfl rfl⟩

/-- C6 fails as stated. First input: the destination `k: a`, `k: b` and the
source `k: a`; the source entry occurs in the destination with the identical
value node, yet the merge overwrites the last `k` and yields `k: a`, `k: a`.
Second input: the destination `k: v` and the source `k: 'v'`; key and decoded
value agree, yet the merged entry carries the source's quoted value node. -/
theorem C6_counterexample :
    ((∀ s ∈ subSrc, ∃ d ∈ dupDst, entryKey d = entryKey s ∧ d.Value = s.Value) ∧
      mergeAST subSrc dupDst = [entry (plain "k") (plain "a"), entry (plain "k") (plain "a")] ∧
      mergeAST subSrc dupDst ≠ dupDst) ∧
    ((∀ s ∈ quotedSrc, ∃ d ∈ plainDst,
        entryKey d = entryKey s ∧ stringValue d.Value = stringValue s.Value) ∧
      mergeAST quotedSrc plainDst ≠ plainDst) := by
  decide

/-- C6 as amended: when every string-keyed source entry has the value node of
the last destination entry with the same decoded key, the merged entry list
is the destination's entry list. -/
theorem C6_noop_merge (src dst : List MappingValueNode)
    (h : ∀ s ∈ src, ∀ k, entryKey s = some k →
      ∃ i d, LastWithKey dst k i d ∧ d.Value = s.Value) :
    mergeAST src dst = dst :=
  mergeAST_eq_self src dst (fun k _ s hs => h s (List.getElem?_mem hs.1) k hs.2.1)

/-- C6 as amended, at the documents `'key2': value2`, `'key3': value3` and the
source `key2: value2`. -/
theorem C6_noop_merge_witness :
    mergeAST [entry (plain "key2") (plain "value2")] testDst = testDst :=
  C6_noop_merge [entry (plain "key2") (plain "value2")] testDst (by
    intro s hs k hk
    simp only [List.mem_singleton] at hs
    subst hs
    have hk2 : k = "key2" := by
      have : some "key2" = some k := hk
      exact (Option.some.inj this).symm
    subst hk2
    exact ⟨0, entry (quoted "key2") (plain "value2"), by
      refine ⟨rfl, rfl, ?_⟩
      intro i' e' hi' he'
      have : i' = 1 := by
        have hlt := (List.getElem?_eq_some.mp he').1
        simp [testDst] at hlt
        omega
      subst this
      have : e' = entry (quoted "key3") (plain "value3") := by
        simpa [testDst] using he'.symm
      subst this
      decide, rfl⟩)

/-- C7 fails on the code: when the source parses to a file without documents,
the access `srcAST.Docs[0]` panics; `ProcessFiles` neither returns nil nor an
error value. -/
theorem C7_no_documents_panics :
    ProcessFiles emptySrcWorld "src.yaml" "dst.yaml" =
      (.panicked "index out of range [0] with length 0", []) := by
  decide

/-- C8, the legacy ordered-map merge: `merge(src, dst)` leaves the items of
`dst` in order, the item at the last position holding a key that occurs in
`src` taking the value of the last `src` item with that key, followed by the
`src` items whose key does not occur in `dst`, in source order; merging into
an empty `dst` yields `src`; and the `merge_overwrite_dst` case of `TestMerge`
yields its expected map. -/
theorem C8_legacy_merge :
    (∀ (K V : Type) [DecidableEq K] (src dst : MapSlice K V),
      merge src dst = mergeSpec src dst) ∧
    (∀ (K V : Type) [DecidableEq K] (src : MapSlice K V), merge src [] = src) ∧
    merge [⟨"key2", "value2_src"⟩, ⟨"key3", "value3_src"⟩]
        [⟨"key1", "value1"⟩, ⟨"key2", "value2_dst"⟩]
      = ([⟨"key1", "value1"⟩, ⟨"key2", "value2_src"⟩, ⟨"key3", "value3_src"⟩] :
          MapSlice String String) := by
  refine ⟨fun K V _ src dst => merge_eq_mergeSpec src dst, ?_, by decide⟩
  intro K V _ src
  have := merge_nil src ([] : MapSlice K V)
  simpa [merge, dstMap] using this

/-- C9, last-wins indexing of duplicate destination keys: when `k` is the key
of destination entries at two positions and of a string-keyed source entry,
the index holds for `k` the last destination entry with key `k`, and only
that entry has its value node replaced (by that of the last source entry with
key `k`); every other destination entry with key `k` keeps its key node and
value node, and no appended entry has key `k`. -/
theorem C9_last_wins_indexing (src dst : List MappingValueNode) (k : String)
    (i1 i2 : Nat) (d1 d2 : MappingValueNode) (_h12 : i1 < i2)
    (h1 : dst[i1]? = some d1) (hk1 : entryKey d1 = some k)
    (_h2 : dst[i2]? = some d2) (_hk2 : entryKey d2 = some k)
    (s0 : MappingValueNode) (hs0 : s0 ∈ src) (hsk : entryKey s0 = some k) :
    ∃ j dj n s, LastWithKey dst k j dj ∧ LastWithKey src k n s ∧
      dstKeyNodes dst 0 (fun _ => none) k = some j ∧
      (mergeAST src dst)[j]? = some { Key := dj.Key, Value := s.Value } ∧
      (∀ i d, i ≠ j → dst[i]? = some d → entryKey d = some k →
        (mergeAST src dst)[i]? = some d) ∧
      ∀ e ∈ (mergeAST src dst).drop dst.length, entryKey e ≠ some k := by
  have hex : ∃ d ∈ dst, entryKey d = some k := ⟨d1, List.getElem?_mem h1, hk1⟩
  obtain ⟨j, dj, hd⟩ := exists_lastWithKey dst k hex
  obtain ⟨n, s, hs⟩ := exists_lastWithKey src k ⟨s0, hs0, hsk⟩
  refine ⟨j, dj, n, s, hd, hs, dstKeyNodes_of_last dst k j dj hd, ?_, ?_,
    appended_key_absent src dst k hex⟩
  · rw [mergeAST_getElem?_lt src dst j dj hd.1, merged_of_last src dst k j n dj s hd hs]
  · intro i d hij hdi hki
    rw [mergeAST_getElem?_lt src dst i d hdi]
    rw [merged_of_not_last src dst i d k hdi hki
      (fun hl => hij (lastWithKey_unique dst k i j d dj hl hd).1)]

/-- C9 at a destination with the key `k` twice. -/
theorem C9_last_wins_indexing_witness :
    ∃ j dj n s, LastWithKey dupDst "k" j dj ∧ LastWithKey subSrc "k" n s ∧
      dstKeyNodes dupDst 0 (fun _ => none) "k" = some j ∧
      (mergeAST subSrc dupDst)[j]? = some { Key := dj.Key, Value := s.Value } ∧
      (∀ i d, i ≠ j → dupDst[i]? = some d → entryKey d = some "k" →
        (mergeAST subSrc dupDst)[i]? = some d) ∧
      ∀ e ∈ (mergeAST subSrc dupDst).drop dupDst.length, entryKey e ≠ some "k" :=
  C9_last_wins_indexing subSrc dupDst "k" 0 1
    (entry (plain "k") (plain "a")) (entry (plain "k") (plain "b"))
    (by decide) (by decide) (by decide) (by decide) (by decide)
    (entry (plain "k") (plain "a")) (by decide) (by decide)

/-- C10, re-applying the same source: merging `src` into the result of merging
`src` into `dst` gives the result of merging once, for all entry lists
(duplicate keys and non-string keys allowed on either side). -/
theorem C10_reapply_idempotent (src dst : List MappingValueNode) :
    mergeAST src (mergeAST src dst) = mergeAST src dst :=
  mergeAST_eq_self src (mergeAST src dst) (fun k j s hs => mergeAST_last src dst k j s hs)

end YamlMerge
